import Mathlib

/-
Verification of the SolveSpace B-rep geometry kernel interface
(src/srf/surface.h) and the test harness (src/test/harness.cpp).

The kernel implementation behind surface.h is not part of the sources at
hand, only its declarations; those parts are modelled from the written
specification (each such definition carries a doc comment starting with
"Modelled from the spec:").  The test harness is embedded directly from
its C++ source.  Real numbers of the C++ code are modelled as rationals;
machine counters as naturals.
-/

set_option maxHeartbeats 1000000

/-- Three-dimensional vector over the rationals, standing in for the C++
Vector of doubles. -/
@[ext] structure Vec where
  x : ℚ
  y : ℚ
  z : ℚ
deriving DecidableEq

instance : Zero Vec := ⟨⟨0, 0, 0⟩⟩

instance : Add Vec := ⟨fun a b => ⟨a.x + b.x, a.y + b.y, a.z + b.z⟩⟩

instance : Sub Vec := ⟨fun a b => ⟨a.x - b.x, a.y - b.y, a.z - b.z⟩⟩

instance : SMul ℚ Vec := ⟨fun q a => ⟨q * a.x, q * a.y, q * a.z⟩⟩

@[simp] theorem Vec.zero_x : (0 : Vec).x = 0 := rfl

@[simp] theorem Vec.zero_y : (0 : Vec).y = 0 := rfl

@[simp] theorem Vec.zero_z : (0 : Vec).z = 0 := rfl

@[simp] theorem Vec.add_x (a b : Vec) : (a + b).x = a.x + b.x := rfl

@[simp] theorem Vec.add_y (a b : Vec) : (a + b).y = a.y + b.y := rfl

@[simp] theorem Vec.add_z (a b : Vec) : (a + b).z = a.z + b.z := rfl

@[simp] theorem Vec.sub_x (a b : Vec) : (a - b).x = a.x - b.x := rfl

@[simp] theorem Vec.sub_y (a b : Vec) : (a - b).y = a.y - b.y := rfl

@[simp] theorem Vec.sub_z (a b : Vec) : (a - b).z = a.z - b.z := rfl

@[simp] theorem Vec.smul_x (q : ℚ) (a : Vec) : (q • a).x = q * a.x := rfl

@[simp] theorem Vec.smul_y (q : ℚ) (a : Vec) : (q • a).y = q * a.y := rfl

@[simp] theorem Vec.smul_z (q : ℚ) (a : Vec) : (q • a).z = q * a.z := rfl

/-- Cross product of two vectors. -/
def Vec.cross (a b : Vec) : Vec :=
  ⟨a.y * b.z - a.z * b.y, a.z * b.x - a.x * b.z, a.x * b.y - a.y * b.x⟩

/-- Squared Euclidean norm. -/
def Vec.normSq (a : Vec) : ℚ := a.x * a.x + a.y * a.y + a.z * a.z

@[simp] theorem Vec.normSq_zero : (0 : Vec).normSq = 0 := by
  simp [Vec.normSq]

@[simp] theorem Vec.sub_self (a : Vec) : a - a = 0 := by
  ext <;> simp

theorem Vec.normSq_nonneg (a : Vec) : 0 ≤ a.normSq := by
  have hx := mul_self_nonneg a.x
  have hy := mul_self_nonneg a.y
  have hz := mul_self_nonneg a.z
  unfold Vec.normSq
  linarith

/-- Modelled from the spec: the implementation of Bernstein (declared in
surface.h, implementation absent) — the k-th Bernstein basis value of the
given degree at parameter t, by the closed-form tables for degree 1 to 3;
outside that range the code hits a fatal assertion, modelled as 0. -/
def Bernstein (k deg : ℕ) (t : ℚ) : ℚ :=
  match deg, k with
  | 1, 0 => 1 - t
  | 1, 1 => t
  | 2, 0 => (1 - t) * (1 - t)
  | 2, 1 => 2 * t * (1 - t)
  | 2, 2 => t * t
  | 3, 0 => (1 - t) * (1 - t) * (1 - t)
  | 3, 1 => 3 * t * (1 - t) * (1 - t)
  | 3, 2 => 3 * t * t * (1 - t)
  | 3, 3 => t * t * t
  | _, _ => 0

/-- Rational polynomial curve of degree one to three, mirroring SBezier of
surface.h: a degree, four control-point slots and four weight slots, of
which slots 0..deg are populated. -/
structure SBezier where
  tag : ℤ
  deg : ℕ
  ctrl : Fin 4 → Vec
  weight : Fin 4 → ℚ
deriving DecidableEq

/-- Control point slot k, clamped into the four available slots. -/
def ctrlAt (b : SBezier) (k : ℕ) : Vec :=
  b.ctrl ⟨min k 3, by omega⟩

/-- Weight slot k, clamped into the four available slots. -/
def weightAt (b : SBezier) (k : ℕ) : ℚ :=
  b.weight ⟨min k 3, by omega⟩

/-- Modelled from the spec: SBezier::PointAt (implementation absent) —
rational evaluation, the weighted sum of control points by Bernstein values
divided by the sum of weighted Bernstein values.  The sum is written with
all four slots; Bernstein vanishes above the degree, so the terms past the
degree contribute nothing. -/
def SBezier.PointAt (b : SBezier) (t : ℚ) : Vec :=
  let den := weightAt b 0 * Bernstein 0 b.deg t + weightAt b 1 * Bernstein 1 b.deg t +
             weightAt b 2 * Bernstein 2 b.deg t + weightAt b 3 * Bernstein 3 b.deg t
  let num := (weightAt b 0 * Bernstein 0 b.deg t) • ctrlAt b 0 +
             (weightAt b 1 * Bernstein 1 b.deg t) • ctrlAt b 1 +
             (weightAt b 2 * Bernstein 2 b.deg t) • ctrlAt b 2 +
             (weightAt b 3 * Bernstein 3 b.deg t) • ctrlAt b 3
  if den = 0 then 0 else den⁻¹ • num

/-- Modelled from the spec: SBezier::Start (implementation absent) — the
curve's start point, its first control point; the spec equates it with
PointAt at parameter 0. -/
def SBezier.Start (b : SBezier) : Vec := ctrlAt b 0

/-- Modelled from the spec: SBezier::Finish (implementation absent) — the
curve's end point, its last populated control point; the spec equates it
with PointAt at parameter 1. -/
def SBezier.Finish (b : SBezier) : Vec := ctrlAt b b.deg

/-- Modelled from the spec: SBezier::Reverse (implementation absent) —
swaps the populated control points and weights end-to-end; the unused
slots past the degree are untouched. -/
def SBezier.Reverse (b : SBezier) : SBezier :=
  { b with
    ctrl := fun i => if (i : ℕ) ≤ b.deg then ctrlAt b (b.deg - (i : ℕ)) else b.ctrl i,
    weight := fun i => if (i : ℕ) ≤ b.deg then weightAt b (b.deg - (i : ℕ)) else b.weight i }

theorem reverse_ctrl_of_le (b : SBezier) (i : Fin 4) (h : (i : ℕ) ≤ b.deg) :
    b.Reverse.ctrl i = ctrlAt b (b.deg - (i : ℕ)) := by
  simp [SBezier.Reverse, h]

theorem reverse_deg (b : SBezier) : b.Reverse.deg = b.deg := rfl

@[simp] theorem Vec.zero_smul (v : Vec) : (0 : ℚ) • v = 0 := by
  ext <;> simp

@[simp] theorem Vec.one_smul (v : Vec) : (1 : ℚ) • v = v := by
  ext <;> simp

@[simp] theorem Vec.add_zero (v : Vec) : v + 0 = v := by
  ext <;> simp

@[simp] theorem Vec.zero_add (v : Vec) : 0 + v = v := by
  ext <;> simp

theorem Vec.smul_smul (a c : ℚ) (v : Vec) : a • c • v = (a * c) • v := by
  ext <;> simp <;> ring

/-- Modelled from the spec: SBezier::From on two points (implementation
absent) — a degree-1 curve through the two points with unit weights. -/
def SBezier.From (p0 p1 : Vec) : SBezier :=
  { tag := 0, deg := 1,
    ctrl := fun i => if (i : ℕ) = 0 then p0 else p1,
    weight := fun _ => 1 }

theorem pointAt_zero (b : SBezier) (hdeg : b.deg = 1 ∨ b.deg = 2 ∨ b.deg = 3)
    (hw0 : 0 < weightAt b 0) : b.PointAt 0 = b.Start := by
  have h0 : weightAt b 0 ≠ 0 := ne_of_gt hw0
  rcases hdeg with h | h | h <;>
  · simp only [SBezier.PointAt, h, Bernstein]
    norm_num
    rw [if_neg h0, Vec.smul_smul, inv_mul_cancel₀ h0, Vec.one_smul]
    rfl

theorem pointAt_one (b : SBezier) (hdeg : b.deg = 1 ∨ b.deg = 2 ∨ b.deg = 3)
    (hwd : 0 < weightAt b b.deg) : b.PointAt 1 = b.Finish := by
  have h0 : weightAt b b.deg ≠ 0 := ne_of_gt hwd
  rcases hdeg with h | h | h <;>
  · rw [h] at h0
    simp only [SBezier.PointAt, h, Bernstein]
    norm_num
    rw [if_neg h0, Vec.smul_smul, inv_mul_cancel₀ h0, Vec.one_smul]
    simp [SBezier.Finish, h]

/-- Claim C7: for every curve of degree 1 to 3 with positive weights,
PointAt at parameter 0 equals Start and PointAt at parameter 1 equals
Finish, exactly, with no tolerance. -/
theorem pointAt_endpoints (b : SBezier)
    (hdeg : b.deg = 1 ∨ b.deg = 2 ∨ b.deg = 3)
    (hw : ∀ k : Fin 4, (k : ℕ) ≤ b.deg → 0 < b.weight k) :
    b.PointAt 0 = b.Start ∧ b.PointAt 1 = b.Finish := by
  have hd3 : b.deg ≤ 3 := by rcases hdeg with h | h | h <;> omega
  have hw0 : 0 < weightAt b 0 := by
    have := hw ⟨0, by omega⟩ (by simp)
    simpa [weightAt] using this
  have hwd : 0 < weightAt b b.deg := by
    have := hw ⟨b.deg, by omega⟩ (by simp)
    simpa [weightAt, Nat.min_eq_left hd3] using this
  exact ⟨pointAt_zero b hdeg hw0, pointAt_one b hdeg hwd⟩

theorem pointAt_endpoints_witness :
    ((SBezier.From ⟨0, 0, 0⟩ ⟨1, 2, 3⟩).deg = 1 ∨
     (SBezier.From ⟨0, 0, 0⟩ ⟨1, 2, 3⟩).deg = 2 ∨
     (SBezier.From ⟨0, 0, 0⟩ ⟨1, 2, 3⟩).deg = 3) ∧
    ((SBezier.From ⟨0, 0, 0⟩ ⟨1, 2, 3⟩).PointAt 0 = (SBezier.From ⟨0, 0, 0⟩ ⟨1, 2, 3⟩).Start ∧
     (SBezier.From ⟨0, 0, 0⟩ ⟨1, 2, 3⟩).PointAt 1 = (SBezier.From ⟨0, 0, 0⟩ ⟨1, 2, 3⟩).Finish) :=
  ⟨by decide,
   pointAt_endpoints (SBezier.From ⟨0, 0, 0⟩ ⟨1, 2, 3⟩) (by decide) (by decide)⟩

theorem reverse_reverse_ctrl (b : SBezier) (hdeg : b.deg ≤ 3) (i : Fin 4) :
    b.Reverse.Reverse.ctrl i = b.ctrl i := by
  by_cases hi : (i : ℕ) ≤ b.deg
  · have h1 : min (b.deg - (i : ℕ)) 3 = b.deg - (i : ℕ) := by omega
    have h2 : min ((i : ℕ)) 3 = (i : ℕ) := by omega
    have h3 : b.deg - (b.deg - (i : ℕ)) = (i : ℕ) := by omega
    simp [SBezier.Reverse, ctrlAt, hi, h1, h2, h3, Nat.sub_le]
  · simp [SBezier.Reverse, hi]

theorem reverse_reverse_weight (b : SBezier) (hdeg : b.deg ≤ 3) (i : Fin 4) :
    b.Reverse.Reverse.weight i = b.weight i := by
  by_cases hi : (i : ℕ) ≤ b.deg
  · have h1 : min (b.deg - (i : ℕ)) 3 = b.deg - (i : ℕ) := by omega
    have h2 : min ((i : ℕ)) 3 = (i : ℕ) := by omega
    have h3 : b.deg - (b.deg - (i : ℕ)) = (i : ℕ) := by omega
    simp [SBezier.Reverse, weightAt, hi, h1, h2, h3, Nat.sub_le]
  · simp [SBezier.Reverse, hi]

/-- Claim C8: applying Reverse twice yields a curve with exactly the
original control points and weights, bit-for-bit; Reverse is an
involution on curves of degree at most 3. -/
theorem reverse_involution (b : SBezier) (hdeg : b.deg ≤ 3) :
    b.Reverse.Reverse.ctrl = b.ctrl ∧ b.Reverse.Reverse.weight = b.weight :=
  ⟨funext fun i => reverse_reverse_ctrl b hdeg i,
   funext fun i => reverse_reverse_weight b hdeg i⟩

theorem reverse_involution_witness :
    (SBezier.From ⟨0, 0, 0⟩ ⟨1, 2, 3⟩).deg ≤ 3 ∧
    ((SBezier.From ⟨0, 0, 0⟩ ⟨1, 2, 3⟩).Reverse.Reverse.ctrl =
       (SBezier.From ⟨0, 0, 0⟩ ⟨1, 2, 3⟩).ctrl ∧
     (SBezier.From ⟨0, 0, 0⟩ ⟨1, 2, 3⟩).Reverse.Reverse.weight =
       (SBezier.From ⟨0, 0, 0⟩ ⟨1, 2, 3⟩).weight) :=
  ⟨by decide, reverse_involution (SBezier.From ⟨0, 0, 0⟩ ⟨1, 2, 3⟩) (by decide)⟩

/-- Modelled from the spec: the fixed chord tolerance of the linearizer, an
implementation constant with a documented default; the spec leaves the
exact value open. -/
def chordTol : ℚ := 1 / 100

/-- Modelled from the spec: the recursion-depth ceiling of MakePwlWorker,
an implementation constant preventing infinite recursion on degenerate
curves. -/
def pwlMaxDepth : ℕ := 20

/-- Chord-deviation test: the distance from the sample point pm to the
line through pa and pb is at most chordTol, stated on squares so that it
is exact over the rationals. -/
def chordWithinTol (pa pb pm : Vec) : Bool :=
  decide (Vec.normSq (Vec.cross (pm - pa) (pb - pa)) ≤
          chordTol ^ 2 * Vec.normSq (pb - pa))

/-- Chord-deviation test for the parameter interval ta..tb of a curve,
sampling the true curve at the parametric midpoint. -/
def SBezier.chordOK (b : SBezier) (ta tb : ℚ) : Bool :=
  chordWithinTol (b.PointAt ta) (b.PointAt tb) (b.PointAt ((ta + tb) / 2))

/-- Modelled from the spec: SBezier::MakePwlWorker (implementation absent)
— subdivide the interval at the parametric midpoint until the chord from
PointAt ta to PointAt tb deviates from the curve at the midpoint by less
than the chord tolerance, or the recursion-depth ceiling (the fuel) is
exhausted; each leaf emits the endpoint of its chord. -/
def SBezier.MakePwlWorker (b : SBezier) (ta tb : ℚ) : ℕ → List Vec
  | 0 => [b.PointAt tb]
  | fuel + 1 =>
      if b.chordOK ta tb then [b.PointAt tb]
      else b.MakePwlWorker ta ((ta + tb) / 2) fuel ++
           b.MakePwlWorker ((ta + tb) / 2) tb fuel

/-- Modelled from the spec: SBezier::MakePwlInto (implementation absent) —
emit the start point, then linearize the whole parameter interval with the
full recursion budget. -/
def SBezier.MakePwlInto (b : SBezier) : List Vec :=
  b.PointAt 0 :: b.MakePwlWorker 0 1 pwlMaxDepth

/-- A good polyline segment: both endpoints are curve points, and either
the midpoint chord-deviation test passed for its parameter interval or
the interval has been bisected down to the recursion-depth ceiling. -/
def segGood (b : SBezier) (p q : Vec) : Prop :=
  ∃ ta tb, p = b.PointAt ta ∧ q = b.PointAt tb ∧
    (b.chordOK ta tb = true ∨ tb - ta ≤ 1 / 2 ^ pwlMaxDepth)

theorem makePwlWorker_ne_nil (b : SBezier) :
    ∀ (fuel : ℕ) (ta tb : ℚ), b.MakePwlWorker ta tb fuel ≠ [] := by
  intro fuel
  induction fuel with
  | zero => intro ta tb; simp [SBezier.MakePwlWorker]
  | succ n ih =>
      intro ta tb
      simp only [SBezier.MakePwlWorker]
      split
      · simp
      · simp [ih]

theorem makePwlWorker_getLast (b : SBezier) :
    ∀ (fuel : ℕ) (ta tb : ℚ),
      (b.MakePwlWorker ta tb fuel).getLast? = some (b.PointAt tb) := by
  intro fuel
  induction fuel with
  | zero => intro ta tb; rfl
  | succ n ih =>
      intro ta tb
      simp only [SBezier.MakePwlWorker]
      split
      · rfl
      · rw [List.getLast?_append_of_ne_nil _ (makePwlWorker_ne_nil b n _ _)]
        exact ih _ _

theorem makePwlWorker_chain (b : SBezier) :
    ∀ (fuel : ℕ) (ta tb : ℚ), ta < tb →
      tb - ta ≤ 2 ^ fuel / 2 ^ pwlMaxDepth →
      List.Chain' (segGood b) (b.PointAt ta :: b.MakePwlWorker ta tb fuel) := by
  intro fuel
  induction fuel with
  | zero =>
      intro ta tb hlt hle
      simp only [SBezier.MakePwlWorker]
      refine List.chain'_cons.mpr ⟨⟨ta, tb, rfl, rfl, Or.inr ?_⟩, List.chain'_singleton _⟩
      simpa using hle
  | succ n ih =>
      intro ta tb hlt hle
      simp only [SBezier.MakePwlWorker]
      by_cases hc : b.chordOK ta tb
      · rw [if_pos hc]
        exact List.chain'_cons.mpr ⟨⟨ta, tb, rfl, rfl, Or.inl hc⟩, List.chain'_singleton _⟩
      · rw [if_neg hc]
        have hmid1 : ta < (ta + tb) / 2 := by linarith
        have hmid2 : (ta + tb) / 2 < tb := by linarith
        have hle' : tb - ta ≤ 2 * (2 ^ n / 2 ^ pwlMaxDepth) := by
          calc tb - ta ≤ 2 ^ (n + 1) / 2 ^ pwlMaxDepth := hle
            _ = 2 * (2 ^ n / 2 ^ pwlMaxDepth) := by ring
        have hw1 : (ta + tb) / 2 - ta ≤ 2 ^ n / 2 ^ pwlMaxDepth := by linarith
        have hw2 : tb - (ta + tb) / 2 ≤ 2 ^ n / 2 ^ pwlMaxDepth := by linarith
        have ih1 := ih ta ((ta + tb) / 2) hmid1 hw1
        have ih2 := ih ((ta + tb) / 2) tb hmid2 hw2
        rw [← List.cons_append]
        refine List.chain'_append.mpr ⟨ih1, (List.chain'_cons'.mp ih2).2, ?_⟩
        intro p hp q hq
        have hlast : (b.PointAt ta :: b.MakePwlWorker ta ((ta + tb) / 2) n).getLast? =
            some (b.PointAt ((ta + tb) / 2)) := by
          have hsplit : b.PointAt ta :: b.MakePwlWorker ta ((ta + tb) / 2) n =
              [b.PointAt ta] ++ b.MakePwlWorker ta ((ta + tb) / 2) n := rfl
          rw [hsplit, List.getLast?_append_of_ne_nil _ (makePwlWorker_ne_nil b n _ _)]
          exact makePwlWorker_getLast b n _ _
        rw [hlast] at hp
        have hp2 : p = b.PointAt ((ta + tb) / 2) := by
          have := Option.mem_some_iff.mp hp
          exact this.symm
        subst hp2
        exact (List.chain'_cons'.mp ih2).1 q hq

/-- Claim C4: for every curve of degree 1 to 3 (with positive weights),
the polyline produced by MakePwlInto starts within the chord tolerance of
Start and ends within the chord tolerance of Finish, and every segment of
the polyline spans a parameter interval whose midpoint sample deviates
from the chord by at most the chord tolerance, unless the recursion-depth
ceiling was reached for that segment. -/
theorem makePwlInto_chord_spec (b : SBezier)
    (hdeg : b.deg = 1 ∨ b.deg = 2 ∨ b.deg = 3)
    (hw : ∀ k : Fin 4, (k : ℕ) ≤ b.deg → 0 < b.weight k) :
    (∃ p, b.MakePwlInto.head? = some p ∧ Vec.normSq (p - b.Start) ≤ chordTol ^ 2) ∧
    (∃ q, b.MakePwlInto.getLast? = some q ∧ Vec.normSq (q - b.Finish) ≤ chordTol ^ 2) ∧
    List.Chain' (segGood b) b.MakePwlInto := by
  have hd3 : b.deg ≤ 3 := by rcases hdeg with h | h | h <;> omega
  have hw0 : 0 < weightAt b 0 := by
    have := hw ⟨0, by omega⟩ (by simp)
    simpa [weightAt] using this
  have hwd : 0 < weightAt b b.deg := by
    have := hw ⟨b.deg, by omega⟩ (by simp)
    simpa [weightAt, Nat.min_eq_left hd3] using this
  have h0 := pointAt_zero b hdeg hw0
  have h1 := pointAt_one b hdeg hwd
  refine ⟨⟨b.PointAt 0, rfl, ?_⟩, ⟨b.PointAt 1, ?_, ?_⟩, ?_⟩
  · rw [h0, Vec.sub_self, Vec.normSq_zero]
    norm_num [chordTol]
  · have hsplit : b.MakePwlInto = [b.PointAt 0] ++ b.MakePwlWorker 0 1 pwlMaxDepth := rfl
    rw [hsplit, List.getLast?_append_of_ne_nil _ (makePwlWorker_ne_nil b pwlMaxDepth 0 1)]
    exact makePwlWorker_getLast b pwlMaxDepth 0 1
  · rw [h1, Vec.sub_self, Vec.normSq_zero]
    norm_num [chordTol]
  · exact makePwlWorker_chain b pwlMaxDepth 0 1 (by norm_num) (by norm_num)

theorem makePwlInto_chord_spec_witness :
    ((SBezier.From ⟨0, 0, 0⟩ ⟨1, 2, 3⟩).deg = 1 ∨
     (SBezier.From ⟨0, 0, 0⟩ ⟨1, 2, 3⟩).deg = 2 ∨
     (SBezier.From ⟨0, 0, 0⟩ ⟨1, 2, 3⟩).deg = 3) ∧
    List.Chain' (segGood (SBezier.From ⟨0, 0, 0⟩ ⟨1, 2, 3⟩))
      (SBezier.From ⟨0, 0, 0⟩ ⟨1, 2, 3⟩).MakePwlInto :=
  ⟨by decide,
   (makePwlInto_chord_spec (SBezier.From ⟨0, 0, 0⟩ ⟨1, 2, 3⟩) (by decide) (by decide)).2.2⟩

/-- Modelled from the spec: the fixed point-equality tolerance of loop
assembly (an implementation constant, eps = 10^-6 length units), stored
squared so that it compares against squared distances. -/
def lengthEpsSq : ℚ := 1 / 1000000000000

/-- Two points coincide within the fixed point-equality tolerance. -/
def near (p q : Vec) : Bool := decide (Vec.normSq (p - q) ≤ lengthEpsSq)

/-- Modelled from the spec: the endpoint search inside
SBezierLoop::FromCurves (implementation absent) — scan the unused curves
in input order for the first whose start (or, for an implicit reversal,
whose finish) coincides with the chain's hanging end within tolerance;
return that curve, whether it must be reversed, and the other unused
curves in their original order. -/
def findNext (hang : Vec) : List SBezier → Option (SBezier × Bool × List SBezier)
  | [] => none
  | c :: rest =>
      if near c.Start hang then some (c, false, rest)
      else if near c.Finish hang then some (c, true, rest)
      else
        match findNext hang rest with
        | some (d, r, rest2) => some (d, r, c :: rest2)
        | none => none

/-- Modelled from the spec: the chain-growing loop of
SBezierLoop::FromCurves — repeatedly append the first matching unused
curve (reversing it when it matched by its finish) to the chain's hanging
end, until no unused curve matches; the fuel bounds the number of
appends by the number of unused curves. -/
def assembleLoop (hang : Vec) (chain : List SBezier) (remaining : List SBezier) :
    ℕ → List SBezier × Vec × List SBezier
  | 0 => (chain, hang, remaining)
  | fuel + 1 =>
      match findNext hang remaining with
      | none => (chain, hang, remaining)
      | some (c, rev, rest) =>
          assembleLoop (if rev then c.Reverse else c).Finish
            (chain ++ [if rev then c.Reverse else c]) rest fuel

/-- Modelled from the spec: SBezierLoop::FromCurves (implementation
absent) — greedily chain the input curves starting from the first one;
the chain is closed when its final hanging end matches its own start; if
the chain does not close, or some input curve could not be placed,
allClosed is false and errorAt reports the offending endpoint.  Returns
the assembled loop, the allClosed flag and errorAt. -/
def SBezierLoop.FromCurves (input : List SBezier) :
    List SBezier × Bool × Option Vec :=
  match input with
  | [] => ([], true, none)
  | first :: rest =>
      ((assembleLoop first.Finish [first] rest rest.length).1,
       near (assembleLoop first.Finish [first] rest rest.length).2.1 first.Start &&
         (assembleLoop first.Finish [first] rest rest.length).2.2.isEmpty,
       if near (assembleLoop first.Finish [first] rest rest.length).2.1 first.Start then
         match (assembleLoop first.Finish [first] rest rest.length).2.2 with
         | [] => none
         | c :: _ => some c.Start
       else some (assembleLoop first.Finish [first] rest rest.length).2.1)

theorem reverse_finish (c : SBezier) (h : c.deg ≤ 3) :
    c.Reverse.Finish = c.Start := by
  have h1 : min c.deg 3 = c.deg := by omega
  simp [SBezier.Finish, SBezier.Start, SBezier.Reverse, ctrlAt, reverse_deg, h1,
    Nat.sub_self]

theorem near_self (p : Vec) : near p p = true := by
  norm_num [near, lengthEpsSq]

theorem Vec.normSq_sub_comm (p q : Vec) : (p - q).normSq = (q - p).normSq := by
  simp [Vec.normSq]
  ring

theorem near_symm (p q : Vec) : near p q = near q p := by
  simp [near, Vec.normSq_sub_comm]

/-- The curve is an edge joining the points p and q, in either
orientation, with exact endpoint coincidence. -/
def IsEdge (c : SBezier) (p q : Vec) : Bool :=
  (decide (c.Start = p) && decide (c.Finish = q)) ||
  (decide (c.Start = q) && decide (c.Finish = p))

/-- The curves es, taken in the given order, are the edges of the open
polyline running from p through the vertices ws: one curve per
consecutive vertex pair, each in either orientation. -/
def IsEdgePath : Vec → List Vec → List SBezier → Bool
  | _, [], [] => true
  | p, w :: ws, c :: cs => IsEdge c p w && IsEdgePath w ws cs
  | _, _, _ => false

theorem edgePath_endpoints :
    ∀ (ws : List Vec) (es : List SBezier) (p : Vec),
      IsEdgePath p ws es = true →
      ∀ d ∈ es, d.Start ∈ p :: ws ∧ d.Finish ∈ p :: ws := by
  intro ws
  induction ws with
  | nil =>
      intro es p hpath d hd
      cases es with
      | nil => simp at hd
      | cons c cs => simp [IsEdgePath] at hpath
  | cons w ws' ih =>
      intro es p hpath d hd
      cases es with
      | nil => simp [IsEdgePath] at hpath
      | cons c cs =>
          simp only [IsEdgePath, Bool.and_eq_true] at hpath
          obtain ⟨hedge, hrest⟩ := hpath
          rcases List.mem_cons.mp hd with rfl | hd'
          · simp only [IsEdge, Bool.or_eq_true, Bool.and_eq_true,
              decide_eq_true_eq] at hedge
            rcases hedge with ⟨h1, h2⟩ | ⟨h1, h2⟩ <;> simp [h1, h2]
          · obtain ⟨h1, h2⟩ := ih cs w hrest d hd'
            exact ⟨List.mem_cons_of_mem _ h1, List.mem_cons_of_mem _ h2⟩

theorem findNext_none (hang : Vec) :
    ∀ (rem : List SBezier),
      (∀ d ∈ rem, near d.Start hang = false ∧ near d.Finish hang = false) →
      findNext hang rem = none := by
  intro rem
  induction rem with
  | nil => intro _; rfl
  | cons d rest ih =>
      intro hfar
      obtain ⟨h1, h2⟩ := hfar d (by simp)
      have hrest := ih fun e he => hfar e (List.mem_cons_of_mem _ he)
      simp [findNext, h1, h2, hrest]

theorem findNext_unique (hang : Vec) :
    ∀ (rem : List SBezier) (c : SBezier),
      c ∈ rem →
      (∀ d ∈ rem, d ≠ c → near d.Start hang = false ∧ near d.Finish hang = false) →
      (near c.Start hang = true →
        findNext hang rem = some (c, false, rem.erase c)) ∧
      (near c.Start hang = false → near c.Finish hang = true →
        findNext hang rem = some (c, true, rem.erase c)) := by
  intro rem
  induction rem with
  | nil => intro c hc _; simp at hc
  | cons d rest ih =>
      intro c hc hfar
      by_cases hdc : d = c
      · subst hdc
        constructor
        · intro hs
          simp [findNext, hs, List.erase_cons_head]
        · intro hs hf
          simp [findNext, hs, hf, List.erase_cons_head]
      · have hdfar := hfar d (by simp) hdc
        have hcrest : c ∈ rest := by
          rcases List.mem_cons.mp hc with h | h
          · exact absurd h.symm hdc
          · exact h
        have ihc := ih c hcrest fun e he hne => hfar e (List.mem_cons_of_mem _ he) hne
        have herase : (d :: rest).erase c = d :: rest.erase c :=
          List.erase_cons_tail (by simp [hdc])
        constructor
        · intro hs
          simp [findNext, hdfar.1, hdfar.2, ihc.1 hs, herase]
        · intro hs hf
          simp [findNext, hdfar.1, hdfar.2, ihc.2 hs hf, herase]

theorem assembleLoop_polygon :
    ∀ (ws : List Vec) (es rem extra : List SBezier) (fuel : ℕ) (w : Vec)
      (chain : List SBezier),
      (∀ c ∈ es, c.deg ≤ 3) →
      rem.Perm (es ++ extra) →
      IsEdgePath w ws es = true →
      List.Pairwise (fun p q => near p q = false) (w :: ws) →
      (∀ d ∈ extra, ∀ v ∈ w :: ws,
        near d.Start v = false ∧ near d.Finish v = false) →
      rem.length ≤ fuel →
      (assembleLoop w chain rem fuel).2.1 = ws.getLastD w ∧
      (assembleLoop w chain rem fuel).2.2.Perm extra ∧
      (assembleLoop w chain rem fuel).1.length = chain.length + es.length := by
  intro ws
  induction ws with
  | nil =>
      intro es rem extra fuel w chain hdeg hperm hpath hfar hfarx hlen
      have hes : es = [] := by
        cases es with
        | nil => rfl
        | cons c cs => simp [IsEdgePath] at hpath
      subst hes
      have hremx : rem.Perm extra := by simpa using hperm
      have hstop : ∀ d ∈ rem, near d.Start w = false ∧ near d.Finish w = false :=
        fun d hd => hfarx d (hremx.mem_iff.mp hd) w (by simp)
      cases fuel with
      | zero => exact ⟨rfl, hremx, by simp [assembleLoop]⟩
      | succ f =>
          refine ⟨?_, ?_, ?_⟩ <;>
            simp [assembleLoop, findNext_none w rem hstop, hremx]
  | cons w1 ws' ih =>
      intro es rem extra fuel w chain hdeg hperm hpath hfar hfarx hlen
      cases es with
      | nil => simp [IsEdgePath] at hpath
      | cons c es' =>
      simp only [IsEdgePath, Bool.and_eq_true] at hpath
      obtain ⟨hedge, hpath'⟩ := hpath
      have hcmem : c ∈ rem := hperm.mem_iff.mpr (by simp)
      obtain ⟨f, rfl⟩ : ∃ f, fuel = f + 1 := by
        cases fuel with
        | zero =>
            exfalso
            have hl := hperm.length_eq
            simp at hl
            omega
        | succ f => exact ⟨f, rfl⟩
      have hwfar : ∀ v ∈ w1 :: ws', near w v = false :=
        fun v hv => (List.pairwise_cons.mp hfar).1 v hv
      have hfartail : List.Pairwise (fun p q => near p q = false) (w1 :: ws') :=
        (List.pairwise_cons.mp hfar).2
      have hunique : ∀ d ∈ rem, d ≠ c →
          near d.Start w = false ∧ near d.Finish w = false := by
        intro d hd hne
        have hd' : d ∈ c :: (es' ++ extra) := hperm.mem_iff.mp hd
        rcases List.mem_cons.mp hd' with rfl | hd''
        · exact absurd rfl hne
        · rcases List.mem_append.mp hd'' with hdes | hdx
          · obtain ⟨h1, h2⟩ := edgePath_endpoints ws' es' w1 hpath' d hdes
            exact ⟨by rw [near_symm]; exact hwfar _ h1,
                   by rw [near_symm]; exact hwfar _ h2⟩
          · exact hfarx d hdx w (by simp)
      have hdegc : c.deg ≤ 3 := hdeg c (by simp)
      have herase : (rem.erase c).Perm (es' ++ extra) := by
        have h1 := hperm.erase c
        simpa [List.erase_cons_head] using h1
      have hlen' : (rem.erase c).length ≤ f := by
        have h1 := List.length_erase_of_mem hcmem
        have h2 := List.length_pos_of_mem hcmem
        omega
      have hdeg' : ∀ d ∈ es', d.deg ≤ 3 :=
        fun d hd => hdeg d (List.mem_cons_of_mem _ hd)
      have hfarx' : ∀ d ∈ extra, ∀ v ∈ w1 :: ws',
          near d.Start v = false ∧ near d.Finish v = false :=
        fun d hd v hv => hfarx d hd v (List.mem_cons_of_mem _ hv)
      simp only [IsEdge, Bool.or_eq_true, Bool.and_eq_true,
        decide_eq_true_eq] at hedge
      rcases hedge with ⟨hcs, hcf⟩ | ⟨hcs, hcf⟩
      · have hns : near c.Start w = true := by rw [hcs]; exact near_self w
        have hfind := (findNext_unique w rem c hcmem hunique).1 hns
        have hstep : assembleLoop w chain rem (f + 1) =
            assembleLoop w1 (chain ++ [c]) (rem.erase c) f := by
          simp [assembleLoop, hfind, hcf]
        rw [hstep]
        obtain ⟨g1, g2, g3⟩ := ih es' (rem.erase c) extra f w1 (chain ++ [c])
          hdeg' herase hpath' hfartail hfarx' hlen'
        refine ⟨?_, g2, ?_⟩
        · rw [g1, List.getLastD_cons]
        · rw [g3]
          simp only [List.length_append, List.length_cons, List.length_nil]
          omega
      · have hns : near c.Start w = false := by
          rw [hcs, near_symm]
          exact hwfar w1 (by simp)
        have hnf : near c.Finish w = true := by rw [hcf]; exact near_self w
        have hfind := (findNext_unique w rem c hcmem hunique).2 hns hnf
        have hrf : c.Reverse.Finish = w1 := by rw [reverse_finish c hdegc, hcs]
        have hstep : assembleLoop w chain rem (f + 1) =
            assembleLoop w1 (chain ++ [c.Reverse]) (rem.erase c) f := by
          simp [assembleLoop, hfind, hrf]
        rw [hstep]
        obtain ⟨g1, g2, g3⟩ := ih es' (rem.erase c) extra f w1 (chain ++ [c.Reverse])
          hdeg' herase hpath' hfartail hfarx' hlen'
        refine ⟨?_, g2, ?_⟩
        · rw [g1, List.getLastD_cons]
        · rw [g3]
          simp only [List.length_append, List.length_cons, List.length_nil]
          omega

/-- Claim C5: for every input list of curves whose endpoints form a
single closed polygon — in any input order and with each curve in either
orientation: the input is a permutation of the edges of a vertex cycle
running from the first curve's finish through the further vertices ws
and back to the first curve's start, the polygon's vertices pairwise
separated beyond the point tolerance — FromCurves reports
allClosed = true and returns a loop with as many curves as the input. -/
theorem fromCurves_closed (first : SBezier) (rest : List SBezier)
    (ws : List Vec) (es : List SBezier)
    (hdeg : ∀ c ∈ first :: rest, c.deg ≤ 3)
    (hperm : rest.Perm es)
    (hpath : IsEdgePath first.Finish (ws ++ [first.Start]) es = true)
    (hfar : List.Pairwise (fun p q => near p q = false)
      (first.Finish :: (ws ++ [first.Start]))) :
    (SBezierLoop.FromCurves (first :: rest)).2.1 = true ∧
    (SBezierLoop.FromCurves (first :: rest)).1.length = (first :: rest).length := by
  have hdeg_es : ∀ c ∈ es, c.deg ≤ 3 := fun c hc =>
    hdeg c (List.mem_cons_of_mem _ (hperm.mem_iff.mpr hc))
  have hperm' : rest.Perm (es ++ []) := by simpa using hperm
  obtain ⟨g1, g2, g3⟩ := assembleLoop_polygon (ws ++ [first.Start]) es rest []
    rest.length first.Finish [first] hdeg_es hperm' hpath hfar (by simp) le_rfl
  have hempty : (assembleLoop first.Finish [first] rest rest.length).2.2 = [] :=
    List.perm_nil.mp g2
  rw [List.getLastD_concat] at g1
  have hlen : es.length = rest.length := hperm.length_eq.symm
  constructor
  · simp [SBezierLoop.FromCurves, g1, hempty, near_self]
  · simp only [SBezierLoop.FromCurves]
    rw [g3]
    simp only [List.length_cons, List.length_nil]
    omega

/-- Unit-square side from the origin along x, the first input curve of
the loop-assembly witnesses. -/
def sqCurve1 : SBezier := SBezier.From ⟨0, 0, 0⟩ ⟨1, 0, 0⟩

/-- Unit-square side from one-x up along y. -/
def sqCurve2 : SBezier := SBezier.From ⟨1, 0, 0⟩ ⟨1, 1, 0⟩

/-- Unit-square side from one-x-one-y back along x. -/
def sqCurve3 : SBezier := SBezier.From ⟨1, 1, 0⟩ ⟨0, 1, 0⟩

/-- Unit-square side from one-y back down to the origin. -/
def sqCurve4 : SBezier := SBezier.From ⟨0, 1, 0⟩ ⟨0, 0, 0⟩

/-- A stray segment far from the unit square, unplaceable into its loop. -/
def farCurve : SBezier := SBezier.From ⟨5, 5, 0⟩ ⟨6, 5, 0⟩

theorem fromCurves_closed_witness :
    ([sqCurve3, sqCurve4, sqCurve2].Perm [sqCurve2, sqCurve3, sqCurve4]) ∧
    ((SBezierLoop.FromCurves [sqCurve1, sqCurve3, sqCurve4, sqCurve2]).2.1 = true ∧
     (SBezierLoop.FromCurves [sqCurve1, sqCurve3, sqCurve4, sqCurve2]).1.length =
       ([sqCurve1, sqCurve3, sqCurve4, sqCurve2] : List SBezier).length) :=
  ⟨by decide,
   fromCurves_closed sqCurve1 [sqCurve3, sqCurve4, sqCurve2]
     [⟨1, 1, 0⟩, ⟨0, 1, 0⟩] [sqCurve2, sqCurve3, sqCurve4]
     (by decide) (by decide) (by decide)
     (by norm_num [List.pairwise_cons, near, sqCurve1, SBezier.From,
       SBezier.Start, SBezier.Finish, ctrlAt, Vec.normSq, lengthEpsSq])⟩

/-- Claim C6, first part: for every input list of curves forming a
single open chain — in any input order and with each curve in either
orientation: a permutation of the edges of a simple vertex path from the
first curve's finish, all vertices of the polyline (the chain's start
included) pairwise separated beyond the point tolerance — FromCurves
reports allClosed = false with errorAt equal to one of the two dangling
endpoints (it reports the final hanging end; the other dangling endpoint
is the chain's start).  Second part: whenever the input holds curves
that cannot be placed into a closed chain — the placeable curves close a
polygon and the remaining ones touch none of its vertices — allClosed is
false and errorAt holds the offending endpoint, the start point of one
of the unplaced curves. -/
theorem fromCurves_open :
    (∀ (first : SBezier) (rest : List SBezier) (ws : List Vec)
       (es : List SBezier),
      (∀ c ∈ first :: rest, c.deg ≤ 3) →
      rest.Perm es →
      IsEdgePath first.Finish ws es = true →
      List.Pairwise (fun p q => near p q = false)
        (first.Start :: first.Finish :: ws) →
      (SBezierLoop.FromCurves (first :: rest)).2.1 = false ∧
      ((SBezierLoop.FromCurves (first :: rest)).2.2 =
          some (ws.getLastD first.Finish) ∨
       (SBezierLoop.FromCurves (first :: rest)).2.2 = some first.Start)) ∧
    (∀ (first : SBezier) (rest : List SBezier) (ws : List Vec)
       (es extra : List SBezier),
      (∀ c ∈ first :: rest, c.deg ≤ 3) →
      rest.Perm (es ++ extra) →
      IsEdgePath first.Finish (ws ++ [first.Start]) es = true →
      List.Pairwise (fun p q => near p q = false)
        (first.Finish :: (ws ++ [first.Start])) →
      (∀ d ∈ extra, ∀ v ∈ first.Finish :: (ws ++ [first.Start]),
        near d.Start v = false ∧ near d.Finish v = false) →
      extra ≠ [] →
      (SBezierLoop.FromCurves (first :: rest)).2.1 = false ∧
      ∃ d ∈ extra,
        (SBezierLoop.FromCurves (first :: rest)).2.2 = some d.Start) := by
  constructor
  · intro first rest ws es hdeg hperm hpath hfar
    have hdeg_es : ∀ c ∈ es, c.deg ≤ 3 := fun c hc =>
      hdeg c (List.mem_cons_of_mem _ (hperm.mem_iff.mpr hc))
    have hstartfar : ∀ v ∈ first.Finish :: ws, near first.Start v = false :=
      fun v hv => (List.pairwise_cons.mp hfar).1 v hv
    have hfar' : List.Pairwise (fun p q => near p q = false)
        (first.Finish :: ws) := (List.pairwise_cons.mp hfar).2
    have hperm' : rest.Perm (es ++ []) := by simpa using hperm
    obtain ⟨g1, g2, g3⟩ := assembleLoop_polygon ws es rest [] rest.length
      first.Finish [first] hdeg_es hperm' hpath hfar' (by simp) le_rfl
    have hempty : (assembleLoop first.Finish [first] rest rest.length).2.2 = [] :=
      List.perm_nil.mp g2
    have hopen : near (ws.getLastD first.Finish) first.Start = false := by
      rw [near_symm]
      exact hstartfar _ (List.getLastD_mem_cons ws first.Finish)
    simp only [List.getLastD_eq_getLast?] at hopen g1
    constructor
    · simp [SBezierLoop.FromCurves, g1, hempty, hopen]
    · left
      simp [SBezierLoop.FromCurves, g1, hempty, hopen]
  · intro first rest ws es extra hdeg hperm hpath hfar hfarx hne
    have hdeg_es : ∀ c ∈ es, c.deg ≤ 3 := fun c hc =>
      hdeg c (List.mem_cons_of_mem _
        (hperm.mem_iff.mpr (List.mem_append.mpr (Or.inl hc))))
    obtain ⟨g1, g2, g3⟩ := assembleLoop_polygon (ws ++ [first.Start]) es rest
      extra rest.length first.Finish [first] hdeg_es hperm hpath hfar hfarx le_rfl
    rw [List.getLastD_concat] at g1
    have hlne : (assembleLoop first.Finish [first] rest rest.length).2.2 ≠ [] := by
      intro h
      rw [h] at g2
      exact hne (List.perm_nil.mp g2.symm)
    obtain ⟨d0, rest0, hcons⟩ := List.exists_cons_of_ne_nil hlne
    have hd0 : d0 ∈ extra := by
      have hmem : d0 ∈ (assembleLoop first.Finish [first] rest rest.length).2.2 := by
        rw [hcons]; simp
      exact g2.mem_iff.mp hmem
    constructor
    · simp [SBezierLoop.FromCurves, g1, hcons, near_self]
    · exact ⟨d0, hd0, by simp [SBezierLoop.FromCurves, g1, hcons, near_self]⟩

theorem fromCurves_open_witness :
    ((SBezierLoop.FromCurves [sqCurve1, sqCurve3, sqCurve2]).2.1 = false ∧
     ((SBezierLoop.FromCurves [sqCurve1, sqCurve3, sqCurve2]).2.2 =
        some (([⟨1, 1, 0⟩, ⟨0, 1, 0⟩] : List Vec).getLastD sqCurve1.Finish) ∨
      (SBezierLoop.FromCurves [sqCurve1, sqCurve3, sqCurve2]).2.2 =
        some sqCurve1.Start)) ∧
    ((SBezierLoop.FromCurves
        [sqCurve1, sqCurve4, farCurve, sqCurve2, sqCurve3]).2.1 = false ∧
     ∃ d ∈ [farCurve],
       (SBezierLoop.FromCurves
         [sqCurve1, sqCurve4, farCurve, sqCurve2, sqCurve3]).2.2 = some d.Start) :=
  ⟨fromCurves_open.1 sqCurve1 [sqCurve3, sqCurve2] [⟨1, 1, 0⟩, ⟨0, 1, 0⟩]
     [sqCurve2, sqCurve3]
     (by decide) (by decide) (by decide)
     (by norm_num [List.pairwise_cons, near, sqCurve1, SBezier.From,
       SBezier.Start, SBezier.Finish, ctrlAt, Vec.normSq, lengthEpsSq]),
   fromCurves_open.2 sqCurve1 [sqCurve4, farCurve, sqCurve2, sqCurve3]
     [⟨1, 1, 0⟩, ⟨0, 1, 0⟩] [sqCurve2, sqCurve3, sqCurve4] [farCurve]
     (by decide) (by decide) (by decide)
     (by norm_num [List.pairwise_cons, near, sqCurve1, SBezier.From,
       SBezier.Start, SBezier.Finish, ctrlAt, Vec.normSq, lengthEpsSq])
     (by norm_num [near, sqCurve1, farCurve, SBezier.From, SBezier.Start,
       SBezier.Finish, ctrlAt, Vec.normSq, lengthEpsSq])
     (by decide)⟩

/-- Axis-aligned bounding box, a bounding volume of a surface. -/
structure Box where
  lo : Vec
  hi : Vec
deriving DecidableEq

/-- Closed-interval overlap test of two bounding boxes on all three axes. -/
def boxesOverlap (a b : Box) : Bool :=
  decide (a.lo.x ≤ b.hi.x) && decide (b.lo.x ≤ a.hi.x) &&
  decide (a.lo.y ≤ b.hi.y) && decide (b.lo.y ≤ a.hi.y) &&
  decide (a.lo.z ≤ b.hi.z) && decide (b.lo.z ≤ a.hi.z)

/-- Centre of a bounding box, the representative point of a region. -/
def boxCenter (bx : Box) : Vec :=
  ⟨(bx.lo.x + bx.hi.x) / 2, (bx.lo.y + bx.hi.y) / 2, (bx.lo.z + bx.hi.z) / 2⟩

/-- Modelled from the spec: SSurface of surface.h at the bounding-volume
granularity at which the spec describes the union pipeline — a handle and
a bounding volume; the control grid, degrees and trim list play no role
in the claims settled here. -/
structure SSurface where
  h : ℕ
  box : Box
deriving DecidableEq

/-- Modelled from the spec: SCurve of surface.h — a handle and the cached
linearized points. -/
structure SCurve where
  h : ℕ
  pts : List Vec
deriving DecidableEq

/-- An intersection curve produced by step 1 of the union: the handles of
its two parent surfaces and its linearized points. -/
structure ICurve where
  srfA : ℕ
  srfB : ℕ
  pts : List Vec
deriving DecidableEq

/-- Modelled from the spec: SShell of surface.h — an owning collection of
curves and surfaces. -/
structure SShell where
  curve : List SCurve
  surface : List SSurface
deriving DecidableEq

/-- The three numeric subroutines of the union whose code is neither in
the interface nor given a numeric recipe by the spec: the
surface-surface intersection tracer, the region splitter, and the
point-in-solid classifier.  The union pipeline is parameterized over
them. -/
structure UnionOracles where
  intersectSrf : SSurface → SSurface → List ICurve
  splitSrf : SSurface → List ICurve → List SSurface
  inSolid : SShell → Vec → Bool

/-- Surface pairs, one from each shell, whose bounding volumes overlap —
the only pairs for which step 1 of the union computes intersection
curves. -/
def candidatePairs (a b : SShell) : List (SSurface × SSurface) :=
  ((a.surface.map (fun sa => b.surface.map (fun sb => (sa, sb)))).flatten).filter
    (fun p => boxesOverlap p.1.box p.2.box)

/-- Step 1 of the union: all new intersection curves. -/
def newIntersectionCurves (O : UnionOracles) (a b : SShell) : List ICurve :=
  ((candidatePairs a b).map (fun p => O.intersectSrf p.1 p.2)).flatten

/-- The intersection curves that touch a given surface, the ones at which
step 2 splits its trim boundary. -/
def curvesTouching (ics : List ICurve) (s : SSurface) : List ICurve :=
  ics.filter (fun ic => decide (ic.srfA = s.h) || decide (ic.srfB = s.h))

/-- Steps 2 and 3 of the union for one surface: split it into regions at
the touching intersection curves, then keep the regions whose
representative point lies outside the other shell. -/
def regionsKept (O : UnionOracles) (ics : List ICurve) (other : SShell)
    (s : SSurface) : List SSurface :=
  (O.splitSrf s (curvesTouching ics s)).filter
    (fun r => !(O.inSolid other (boxCenter r.box)))

/-- Fresh consecutive handle allocation for the surfaces of a new shell. -/
def renumberSurfacesFrom (i : ℕ) : List SSurface → List SSurface
  | [] => []
  | s :: rest => { s with h := i } :: renumberSurfacesFrom (i + 1) rest

/-- Fresh consecutive handle allocation for the curves of a new shell. -/
def renumberCurvesFrom (i : ℕ) : List SCurve → List SCurve
  | [] => []
  | c :: rest => { c with h := i } :: renumberCurvesFrom (i + 1) rest

/-- Modelled from the spec: SShell::FromUnionOf (implementation absent) —
the five-step union pipeline at the granularity the spec gives it: (1)
intersection curves are computed only for surface pairs whose bounding
volumes overlap, by the numeric tracer; (2) each input surface is split
into regions at the intersection curves touching it, by the splitter;
(3)-(4) a region is kept exactly when its representative point lies
outside the other shell, by the point-in-solid classifier; (5) the kept
regions, copies of the input curves and the shared intersection curves
are reassembled into a new shell with freshly allocated handles. -/
def SShell.FromUnionOf (O : UnionOracles) (a b : SShell) : SShell :=
  { curve := renumberCurvesFrom 1
      (a.curve ++ b.curve ++
        (newIntersectionCurves O a b).map (fun ic => { h := 0, pts := ic.pts })),
    surface := renumberSurfacesFrom 1
      ((a.surface.map (regionsKept O (newIntersectionCurves O a b) b)).flatten ++
       (b.surface.map (regionsKept O (newIntersectionCurves O a b) a)).flatten) }

/-- Modelled from the spec: the observable effect of SShell::FromUnionOf
on all three shells involved — the two inputs as they stand after the
call, and the new result shell. -/
def SShell.FromUnionOfFull (O : UnionOracles) (a b : SShell) :
    SShell × SShell × SShell :=
  (a, b, SShell.FromUnionOf O a b)

theorem join_map_singleton {α : Type} : ∀ l : List α, (l.map (fun x => [x])).flatten = l := by
  intro l
  induction l with
  | nil => rfl
  | cons x xs ih => simp [ih]

theorem renumberSurfacesFrom_length :
    ∀ (l : List SSurface) (i : ℕ), (renumberSurfacesFrom i l).length = l.length := by
  intro l
  induction l with
  | nil => intro i; rfl
  | cons s rest ih => intro i; simp [renumberSurfacesFrom, ih]

theorem renumberCurvesFrom_length :
    ∀ (l : List SCurve) (i : ℕ), (renumberCurvesFrom i l).length = l.length := by
  intro l
  induction l with
  | nil => intro i; rfl
  | cons c rest ih => intro i; simp [renumberCurvesFrom, ih]

theorem renumberSurfacesFrom_handles :
    ∀ (l : List SSurface) (i : ℕ),
      (renumberSurfacesFrom i l).map (fun s => s.h) = List.range' i l.length := by
  intro l
  induction l with
  | nil => intro i; rfl
  | cons s rest ih =>
      intro i
      simp only [renumberSurfacesFrom, List.map_cons, List.length_cons, ih,
        List.range'_succ]

theorem renumberCurvesFrom_handles :
    ∀ (l : List SCurve) (i : ℕ),
      (renumberCurvesFrom i l).map (fun c => c.h) = List.range' i l.length := by
  intro l
  induction l with
  | nil => intro i; rfl
  | cons c rest ih =>
      intro i
      simp only [renumberCurvesFrom, List.map_cons, List.length_cons, ih,
        List.range'_succ]

/-- Claim C1: for two shells whose solids do not overlap — rendered at the
spec's bounding-volume granularity as: no surface of one has a bounding
volume overlapping a bounding volume of the other, every surface's
representative point classifies as outside the other shell, and the
splitter returns a surface whole when no intersection curve touches it —
the union computes no new intersection curves, and the resulting shell
has exactly the sum of the input surface counts (and of the input curve
counts). -/
theorem fromUnionOf_disjoint (O : UnionOracles) (a b : SShell)
    (hdisj : ∀ sa ∈ a.surface, ∀ sb ∈ b.surface, boxesOverlap sa.box sb.box = false)
    (hsplit : ∀ s, O.splitSrf s [] = [s])
    (houtA : ∀ s ∈ a.surface, O.inSolid b (boxCenter s.box) = false)
    (houtB : ∀ s ∈ b.surface, O.inSolid a (boxCenter s.box) = false) :
    newIntersectionCurves O a b = [] ∧
    (SShell.FromUnionOf O a b).surface.length = a.surface.length + b.surface.length ∧
    (SShell.FromUnionOf O a b).curve.length = a.curve.length + b.curve.length := by
  have hcand : candidatePairs a b = [] := by
    unfold candidatePairs
    rw [List.filter_eq_nil_iff]
    intro p hp
    simp only [List.mem_flatten, List.mem_map] at hp
    obtain ⟨l, ⟨sa, hsa, rfl⟩, hpl⟩ := hp
    obtain ⟨sb, hsb, rfl⟩ := List.mem_map.mp hpl
    simp [hdisj sa hsa sb hsb]
  have hics : newIntersectionCurves O a b = [] := by
    simp [newIntersectionCurves, hcand]
  have hregA : ∀ s ∈ a.surface,
      regionsKept O (newIntersectionCurves O a b) b s = [s] := by
    intro s hs
    unfold regionsKept
    rw [hics]
    simp [curvesTouching, hsplit, houtA s hs]
  have hregB : ∀ s ∈ b.surface,
      regionsKept O (newIntersectionCurves O a b) a s = [s] := by
    intro s hs
    unfold regionsKept
    rw [hics]
    simp [curvesTouching, hsplit, houtB s hs]
  have hmapA : a.surface.map (regionsKept O (newIntersectionCurves O a b) b) =
      a.surface.map (fun s => [s]) := List.map_congr_left hregA
  have hmapB : b.surface.map (regionsKept O (newIntersectionCurves O a b) a) =
      b.surface.map (fun s => [s]) := List.map_congr_left hregB
  refine ⟨hics, ?_, ?_⟩
  · show (renumberSurfacesFrom 1 _).length = _
    rw [renumberSurfacesFrom_length, List.length_append, hmapA, hmapB,
      join_map_singleton, join_map_singleton]
  · show (renumberCurvesFrom 1 _).length = _
    rw [renumberCurvesFrom_length, hics]
    simp

/-- Shell of the six face bounding volumes of the unit cube at the
origin, used as a concrete union input. -/
def cubeShellA : SShell :=
  { curve := [⟨1, [⟨0, 0, 0⟩, ⟨1, 0, 0⟩]⟩],
    surface := [
      ⟨1, ⟨⟨0, 0, 0⟩, ⟨0, 1, 1⟩⟩⟩,
      ⟨2, ⟨⟨1, 0, 0⟩, ⟨1, 1, 1⟩⟩⟩,
      ⟨3, ⟨⟨0, 0, 0⟩, ⟨1, 0, 1⟩⟩⟩,
      ⟨4, ⟨⟨0, 1, 0⟩, ⟨1, 1, 1⟩⟩⟩,
      ⟨5, ⟨⟨0, 0, 0⟩, ⟨1, 1, 0⟩⟩⟩,
      ⟨6, ⟨⟨0, 0, 1⟩, ⟨1, 1, 1⟩⟩⟩ ] }

/-- Shell of the six face bounding volumes of the unit cube translated by
ten units along x, far beyond the cubes' diagonal. -/
def cubeShellB : SShell :=
  { curve := [⟨1, [⟨10, 0, 0⟩, ⟨11, 0, 0⟩]⟩],
    surface := [
      ⟨1, ⟨⟨10, 0, 0⟩, ⟨10, 1, 1⟩⟩⟩,
      ⟨2, ⟨⟨11, 0, 0⟩, ⟨11, 1, 1⟩⟩⟩,
      ⟨3, ⟨⟨10, 0, 0⟩, ⟨11, 0, 1⟩⟩⟩,
      ⟨4, ⟨⟨10, 1, 0⟩, ⟨11, 1, 1⟩⟩⟩,
      ⟨5, ⟨⟨10, 0, 0⟩, ⟨11, 1, 0⟩⟩⟩,
      ⟨6, ⟨⟨10, 0, 1⟩, ⟨11, 1, 1⟩⟩⟩ ] }

/-- Concrete instantiation of the union's numeric subroutines that obeys
the constraints the witness needs: the tracer finds no curves, the
splitter returns a surface whole when no curve touches it, and the
classifier reports every point outside. -/
def trivialOracles : UnionOracles :=
  { intersectSrf := fun _ _ => [],
    splitSrf := fun s ics => if ics.isEmpty then [s] else [],
    inSolid := fun _ _ => false }

theorem fromUnionOf_disjoint_witness :
    (∀ sa ∈ cubeShellA.surface, ∀ sb ∈ cubeShellB.surface,
       boxesOverlap sa.box sb.box = false) ∧
    (newIntersectionCurves trivialOracles cubeShellA cubeShellB = [] ∧
     (SShell.FromUnionOf trivialOracles cubeShellA cubeShellB).surface.length =
       cubeShellA.surface.length + cubeShellB.surface.length ∧
     (SShell.FromUnionOf trivialOracles cubeShellA cubeShellB).curve.length =
       cubeShellA.curve.length + cubeShellB.curve.length) :=
  ⟨by decide,
   fromUnionOf_disjoint trivialOracles cubeShellA cubeShellB
     (by decide)
     (fun s => by simp [trivialOracles])
     (fun s _ => rfl)
     (fun s _ => rfl)⟩

/-- Claim C2: FromUnionOf leaves both input shells exactly as they were —
every curve and surface of each input, handles included, is unchanged by
the call — and the result is a fresh shell whose curve and surface
handles are freshly allocated consecutive values (hence mutually
distinct and independent of the input handles). -/
theorem fromUnionOf_frame (O : UnionOracles) (a b : SShell) :
    (SShell.FromUnionOfFull O a b).1 = a ∧
    (SShell.FromUnionOfFull O a b).2.1 = b ∧
    (SShell.FromUnionOf O a b).surface.map (fun s => s.h) =
      List.range' 1 (SShell.FromUnionOf O a b).surface.length ∧
    (SShell.FromUnionOf O a b).curve.map (fun c => c.h) =
      List.range' 1 (SShell.FromUnionOf O a b).curve.length ∧
    ((SShell.FromUnionOf O a b).surface.map (fun s => s.h)).Nodup ∧
    ((SShell.FromUnionOf O a b).curve.map (fun c => c.h)).Nodup := by
  have hs : (SShell.FromUnionOf O a b).surface.map (fun s => s.h) =
      List.range' 1 (SShell.FromUnionOf O a b).surface.length := by
    show (renumberSurfacesFrom 1 _).map _ = List.range' 1 (renumberSurfacesFrom 1 _).length
    rw [renumberSurfacesFrom_length, renumberSurfacesFrom_handles]
  have hc : (SShell.FromUnionOf O a b).curve.map (fun c => c.h) =
      List.range' 1 (SShell.FromUnionOf O a b).curve.length := by
    show (renumberCurvesFrom 1 _).map _ = List.range' 1 (renumberCurvesFrom 1 _).length
    rw [renumberCurvesFrom_length, renumberCurvesFrom_handles]
  refine ⟨rfl, rfl, hs, hc, ?_, ?_⟩
  · rw [hs]; exact List.nodup_range' _ _
  · rw [hc]; exact List.nodup_range' _ _

/-- The savefile record tokens whose lines PrepareSavefile erases before
the savefile comparison (harness.cpp, the command check of the
normalization loop). -/
def erasedTokens : List (List Char) :=
  ["Surface".toList, "SCtrl".toList, "TrimBy".toList, "Curve".toList,
   "CCtrl".toList, "CurvePt".toList]

/-- The leading command of a savefile line: its characters before the
first space (harness.cpp takes the prefix up to the first space found
within the line). -/
def lineCmd (s : List Char) : List Char := s.takeWhile (fun c => c != ' ')

/-- Whether PrepareSavefile erases the line: it has a space, a nonempty
leading command, and that command is one of the erased record tokens. -/
def isErasedLine (s : List Char) : Bool :=
  s.contains ' ' && !(lineCmd s).isEmpty && erasedTokens.contains (lineCmd s)

/-- Whether the line holds a key=value pair (harness.cpp: an equals sign
found within the line). -/
def hasEq (s : List Char) : Bool := s.contains '='

/-- PrepareSavefile of harness.cpp on a savefile given as its list of
lines: a line holding a key=value pair has its float-formatted value
rounded — the SAVED table driving that rounding lives outside these
sources, so the per-line rounding pass is the parameter kvRound — and
then every line whose leading space-delimited command is one of the
kernel record tokens is erased. -/
def PrepareSavefile (kvRound : List Char → List Char)
    (lines : List (List Char)) : List (List Char) :=
  (lines.map (fun s => if hasEq s then kvRound s else s)).filter
    (fun s => !(isErasedLine s))

/-- The comparison made by Test::Helper::CheckSave (harness.cpp): the
saved file matches the reference exactly when the two normalized
savefiles coincide. -/
def savefileMatches (kvRound : List Char → List Char)
    (ref out : List (List Char)) : Bool :=
  PrepareSavefile kvRound ref == PrepareSavefile kvRound out

/-- Claim C3, counterexample: two savefiles whose Curve records disagree
in every coordinate nevertheless compare as matching, because
PrepareSavefile erases the lines bearing the kernel record tokens from
both sides before the byte comparison; the savefile check therefore does
not enforce any round-trip of these records, bit-for-bit or otherwise. -/
theorem savefile_curve_not_compared :
    savefileMatches id ["Curve 1 0 0 0".toList] ["Curve 2 9 9 9".toList] = true ∧
    "Curve 1 0 0 0".toList ≠ "Curve 2 9 9 9".toList := by decide

/-- Claim C3 (amended): the savefile comparison does not require the
records saved under the tokens Surface, SCtrl, TrimBy, Curve, CCtrl and
CurvePt to round-trip; PrepareSavefile erases every line bearing one of
these tokens from both files before comparing, and its output is free of
such lines, while the remaining key=value lines are compared after the
float-rounding pass. -/
theorem prepareSavefile_erases_kernel_records
    (kvRound : List Char → List Char) (lines : List (List Char)) (t : List Char)
    (ht : hasEq t = false) (he : isErasedLine t = true) :
    PrepareSavefile kvRound (t :: lines) = PrepareSavefile kvRound lines ∧
    ∀ s ∈ PrepareSavefile kvRound lines, isErasedLine s = false := by
  constructor
  · simp [PrepareSavefile, ht, he]
  · intro s hs
    have := List.of_mem_filter hs
    simpa using this

theorem prepareSavefile_erases_kernel_records_witness :
    hasEq "Curve 1 0 0 0".toList = false ∧
    isErasedLine "Curve 1 0 0 0".toList = true ∧
    PrepareSavefile id ("Curve 1 0 0 0".toList :: ["Param a=1".toList]) =
      PrepareSavefile id ["Param a=1".toList] :=
  ⟨by decide, by decide,
   (prepareSavefile_erases_kernel_records id ["Param a=1".toList]
      ("Curve 1 0 0 0".toList) (by decide) (by decide)).1⟩

/-- Test::Helper of harness.cpp: the running check and failure counters. -/
structure Helper where
  checkCount : ℕ
  failCount : ℕ
deriving DecidableEq

/-- Test::Helper::RecordCheck of harness.cpp: increment checkCount,
increment failCount when the check failed, and return the check's
result unchanged. -/
def Helper.RecordCheck (h : Helper) (success : Bool) : Helper × Bool :=
  ({ checkCount := h.checkCount + 1,
     failCount := h.failCount + (if success then 0 else 1) }, success)

/-- The helper state after recording a list of check results, starting
from the zero-initialized state main gives each test case. -/
def runChecks (bs : List Bool) : Helper :=
  bs.foldl (fun h c => (h.RecordCheck c).1) ⟨0, 0⟩

theorem runChecks_counts_from : ∀ (bs : List Bool) (h : Helper),
    (bs.foldl (fun h c => (h.RecordCheck c).1) h).checkCount =
      h.checkCount + bs.length ∧
    (bs.foldl (fun h c => (h.RecordCheck c).1) h).failCount =
      h.failCount + bs.count false := by
  intro bs
  induction bs with
  | nil => intro h; simp
  | cons c cs ih =>
      intro h
      obtain ⟨h1, h2⟩ := ih ((h.RecordCheck c).1)
      refine ⟨?_, ?_⟩
      · rw [List.foldl_cons, h1]
        simp [Helper.RecordCheck]
        omega
      · rw [List.foldl_cons, h2]
        cases c
        · simp [Helper.RecordCheck, List.count_cons]
          omega
        · simp [Helper.RecordCheck, List.count_cons]

theorem runChecks_checkCount (bs : List Bool) :
    (runChecks bs).checkCount = bs.length := by
  have := (runChecks_counts_from bs ⟨0, 0⟩).1
  simpa [runChecks] using this

theorem runChecks_failCount (bs : List Bool) :
    (runChecks bs).failCount = bs.count false := by
  have := (runChecks_counts_from bs ⟨0, 0⟩).2
  simpa [runChecks] using this

/-- Claim C9: every RecordCheck call increments checkCount by exactly
one, increments failCount by one exactly when its argument is false, and
returns its argument unchanged; consequently failCount never exceeds
checkCount in any helper state reachable from the zero-initialized
state. -/
theorem recordCheck_spec :
    (∀ (h : Helper) (s : Bool),
        (h.RecordCheck s).1.checkCount = h.checkCount + 1 ∧
        (h.RecordCheck s).1.failCount = h.failCount + (if s then 0 else 1) ∧
        (h.RecordCheck s).2 = s) ∧
    (∀ bs : List Bool, (runChecks bs).failCount ≤ (runChecks bs).checkCount) := by
  refine ⟨fun h s => ⟨rfl, rfl, rfl⟩, fun bs => ?_⟩
  rw [runChecks_checkCount, runChecks_failCount]
  exact List.count_le_length false bs

/-- One registered test case of the main loop of harness.cpp: whether its
name matches the filter regex, and the results of the checks its body
records into its zero-initialized helper. -/
structure TCase where
  matchesFilter : Bool
  checks : List Bool
deriving DecidableEq

/-- The per-test status line main prints: empty (zero checks were
recorded), NG (some check failed), or OK. -/
inductive CaseStatus where
  | empty
  | ng
  | ok
deriving DecidableEq

/-- Status main reports for one executed test case. -/
def caseStatus (c : TCase) : CaseStatus :=
  if (runChecks c.checks).checkCount = 0 then CaseStatus.empty
  else if 0 < (runChecks c.checks).failCount then CaseStatus.ng
  else CaseStatus.ok

/-- The statuses main reports, one per non-skipped test case, in order. -/
def mainReport (cs : List TCase) : List CaseStatus :=
  (cs.filter (fun c => c.matchesFilter)).map caseStatus

/-- The failTally accumulated by main: the total number of failed checks
over the non-skipped test cases. -/
def failTally (cs : List TCase) : ℕ :=
  ((cs.filter (fun c => c.matchesFilter)).map
    (fun c => (runChecks c.checks).failCount)).sum

/-- The exit status of main: it returns failTally > 0, so 1 when any
check failed and 0 otherwise. -/
def mainExitCode (cs : List TCase) : ℕ :=
  if 0 < failTally cs then 1 else 0

theorem failTally_pos_iff (cs : List TCase) :
    0 < failTally cs ↔ ∃ c ∈ cs, c.matchesFilter = true ∧ false ∈ c.checks := by
  rw [Nat.pos_iff_ne_zero]
  constructor
  · intro hne
    have hex : ¬ ∀ x ∈ (cs.filter (fun c => c.matchesFilter)).map
        (fun c => (runChecks c.checks).failCount), x = 0 := by
      intro hall
      exact hne (List.sum_eq_zero_iff.mpr hall)
    push_neg at hex
    obtain ⟨x, hx, hxne⟩ := hex
    obtain ⟨c, hc, rfl⟩ := List.mem_map.mp hx
    obtain ⟨hcs, hmatch⟩ := List.mem_filter.mp hc
    refine ⟨c, hcs, hmatch, ?_⟩
    rw [runChecks_failCount] at hxne
    exact List.count_pos_iff.mp (Nat.pos_of_ne_zero hxne)
  · intro ⟨c, hcs, hmatch, hfalse⟩ hzero
    have hall := List.sum_eq_zero_iff.mp hzero
    have hc : c ∈ cs.filter (fun c => c.matchesFilter) :=
      List.mem_filter.mpr ⟨hcs, hmatch⟩
    have := hall _ (List.mem_map.mpr ⟨c, hc, rfl⟩)
    rw [runChecks_failCount] at this
    have := List.count_pos_iff.mpr hfalse
    omega

/-- Claim C10: main exits with nonzero status exactly when some executed
test case recorded a failed check; an executed test case with zero
checks is reported with the empty status, yet it contributes nothing to
the fail tally, so by itself it never causes a nonzero exit. -/
theorem mainExitCode_spec (cs : List TCase) :
    (mainExitCode cs ≠ 0 ↔
      ∃ c ∈ cs, c.matchesFilter = true ∧ false ∈ c.checks) ∧
    (∀ c ∈ cs, c.matchesFilter = true → c.checks = [] →
      caseStatus c = CaseStatus.empty ∧ CaseStatus.empty ∈ mainReport cs) ∧
    ((∀ c ∈ cs, c.matchesFilter = true → false ∉ c.checks) →
      mainExitCode cs = 0) := by
  have hiff : mainExitCode cs ≠ 0 ↔ 0 < failTally cs := by
    unfold mainExitCode
    split
    · simp only [ne_eq, one_ne_zero, not_false_eq_true, true_iff]
      assumption
    · simp only [ne_eq, not_true_eq_false, false_iff]
      omega
  refine ⟨hiff.trans (failTally_pos_iff cs), ?_, ?_⟩
  · intro c hcs hmatch hnil
    have hstatus : caseStatus c = CaseStatus.empty := by
      simp [caseStatus, hnil, runChecks]
    refine ⟨hstatus, ?_⟩
    have hc : c ∈ cs.filter (fun c => c.matchesFilter) :=
      List.mem_filter.mpr ⟨hcs, hmatch⟩
    exact List.mem_map.mpr ⟨c, hc, hstatus⟩
  · intro hnone
    by_contra hne
    obtain ⟨c, hcs, hmatch, hfalse⟩ :=
      ((hiff.trans (failTally_pos_iff cs)).mp hne)
    exact hnone c hcs hmatch hfalse

theorem mainExitCode_spec_witness :
    mainExitCode [TCase.mk true [false]] ≠ 0 ∧
    mainExitCode [TCase.mk true []] = 0 ∧
    caseStatus (TCase.mk true []) = CaseStatus.empty :=
  ⟨(mainExitCode_spec [TCase.mk true [false]]).1.mpr
     ⟨TCase.mk true [false], by decide, by decide, by decide⟩,
   (mainExitCode_spec [TCase.mk true []]).2.2 (by decide),
   ((mainExitCode_spec [TCase.mk true []]).2.1 (TCase.mk true []) (by decide)
     rfl rfl).1⟩
